import Mathlib

/-!
Verification of the color-inspector VS Code extension core
(`src/extension.ts` of rodclemen/color-inspector).

The repository ships `src/extension.ts` in three concatenated revisions.
The shallow embedding below translates the scanner/aggregator/import-graph
core shared by those revisions; where two revisions genuinely differ
(`isFollowable`, the theme-classifying dedup of the second revision) both
versions are embedded, the second revision's definitions living in the
`ThemeVariant` namespace.

Conventions of the embedding:
* JavaScript strings are Lean `String`s; `text.charCodeAt(i) === 10` is
  `'\n'`-equality on `String.data`.
* JavaScript `Map`/`Set` objects (which preserve insertion order) are
  association lists / plain lists.
* Regular-expression *match lists* (the results of `text.matchAll(re)`)
  are passed to the scanner passes as explicit inputs, since the JS RegExp
  engine is outside the embedding; everything the source does *with* a
  match is translated faithfully.  The theme-classifier's three small
  line-local regexes are hand-translated to character scanners.
* `async`/`await` file access is a pure environment record `ScanEnv`
  (`readText` returning `Option String` models the `try/catch` around
  `readUriText`).
* The `while` loops (BFS traversal, the two binary searches) are
  translated to recursions; the BFS recurses on the remaining file budget
  `maxFiles - out.length` (the only quantity the loop guard consumes),
  and the binary searches carry a fuel that provably dominates the
  shrinking interval `hi + 1 - lo`, so the fuel-exhausted branch is
  unreachable from the exported wrappers.
-/

/- =========================================================
   JS string primitives used by the key normalisation
   (`value.trim().toLowerCase().replace(/\s+/g, "")`)
========================================================= -/

/-- The character class `\s` of JavaScript regular expressions
(ASCII part plus NBSP, BOM and the common Unicode space points). -/
def jsWhitespace (c : Char) : Bool :=
  c = ' ' || c = '\t' || c = '\n' || c = '\r' || c = '\x0b' || c = '\x0c' ||
  c = ' ' || c = ' ' || (0x2000 ≤ c.toNat && c.toNat ≤ 0x200a) ||
  c = ' ' || c = ' ' || c = ' ' || c = ' ' || c = '　' ||
  c = '﻿'

/-- JavaScript `String.prototype.trim` (drop leading and trailing `\s`). -/
def jsTrim (s : String) : String :=
  ⟨((s.data.dropWhile jsWhitespace).reverse.dropWhile jsWhitespace).reverse⟩

/-- JavaScript `String.prototype.toLowerCase` (ASCII-adequate model). -/
def jsToLower (s : String) : String :=
  ⟨s.data.map Char.toLower⟩

/-- JavaScript `value.replace(/\s+/g, "")`: delete every `\s` character. -/
def stripJsWhitespace (s : String) : String :=
  ⟨s.data.filter (fun c => !jsWhitespace c)⟩

/-- Function `normalizeColorKey` (extension.ts:4100, identically at 970 and 2594):
`value.trim().toLowerCase().replace(/\s+/g, "")`. -/
def normalizeColorKey (value : String) : String :=
  stripJsWhitespace (jsToLower (jsTrim value))

/- =========================================================
   Data model of the third revision
   (`HitRange`, `UsageInfo`, `ColorOccur`, `ColorEntry`, `VarDef`)
========================================================= -/

/-- Type `HitRange` (extension.ts:3107): 1-based line, 0-based columns.
Columns are `Int` because they are produced by JS number arithmetic. -/
structure HitRange where
  line : Int
  startCol : Int
  endCol : Int
deriving DecidableEq, Repr

/-- Type `UsageInfo` (extension.ts:3113). -/
structure UsageInfo where
  isDefinition : Bool
  scope : Option String
  property : Option String
  line : Int
deriving DecidableEq, Repr

/-- Type `ColorOccur` (extension.ts:3120): tagged union of a variable
occurrence (with name) and a literal occurrence. -/
inductive ColorOccur where
  | var (name value file : String) (range : HitRange) (usage : UsageInfo)
  | literal (value file : String) (range : HitRange) (usage : UsageInfo)
deriving DecidableEq, Repr

/-- The `kind` discriminant of `ColorOccur`. -/
inductive ColorKind where
  | var
  | literal
deriving DecidableEq, Repr

def ColorOccur.kind : ColorOccur → ColorKind
  | .var .. => .var
  | .literal .. => .literal

def ColorOccur.value : ColorOccur → String
  | .var _ v _ _ _ => v
  | .literal v _ _ _ => v

def ColorOccur.file : ColorOccur → String
  | .var _ _ f _ _ => f
  | .literal _ f _ _ => f

/-- Accessor for `o.kind === "var" ? o.name : undefined`. -/
def ColorOccur.varName? : ColorOccur → Option String
  | .var n _ _ _ _ => some n
  | .literal _ _ _ _ => none

/-- Function `makeColorKey` (extension.ts:4104): `var:` keys carry the lowercased
name and the normalised value, `lit:` keys only the normalised value. -/
def makeColorKey (o : ColorOccur) : String :=
  match o with
  | .var name value _ _ _ =>
      "var:" ++ jsToLower name ++ "=" ++ normalizeColorKey value
  | .literal value _ _ _ =>
      "lit:" ++ normalizeColorKey value

/-- Type `ColorEntry` (extension.ts:3137). -/
structure ColorEntry where
  key : String
  kind : ColorKind
  name : Option String
  value : String
  occurrences : List ColorOccur
deriving DecidableEq, Repr

/- =========================================================
   Aggregation (third revision `render`, extension.ts:3337-3355):
   a `Map<string, ColorEntry>` keyed by `makeColorKey`; a miss inserts a
   fresh entry (JS `Map` preserves insertion order, hence the append),
   a hit appends the occurrence to `existing.occurrences`.
========================================================= -/

def insertOccurrence (entries : List ColorEntry) (o : ColorOccur) : List ColorEntry :=
  if entries.any (fun e => e.key = makeColorKey o) then
    entries.map (fun e =>
      if e.key = makeColorKey o then
        { e with occurrences := e.occurrences ++ [o] }
      else e)
  else
    entries ++ [{ key := makeColorKey o, kind := o.kind, name := o.varName?,
                  value := o.value, occurrences := [o] }]

/-- The whole aggregation loop `for (const o of arr) ...` over the
(file-ordered) occurrence stream. -/
def aggregateEntries (occs : List ColorOccur) : List ColorEntry :=
  occs.foldl insertOccurrence []

/-- Invariant carried through the aggregation fold: pairwise-distinct keys,
each entry's occurrence list is exactly the processed occurrences of its
key (in stream order), and every processed occurrence has an entry. -/
def AggInv (processed : List ColorOccur) (entries : List ColorEntry) : Prop :=
  (entries.map ColorEntry.key).Nodup ∧
  (∀ e ∈ entries, e.occurrences =
      processed.filter (fun o => makeColorKey o = e.key)) ∧
  (∀ o ∈ processed, ∃ e ∈ entries, e.key = makeColorKey o)

/- =========================================================
   Line index (`buildLineStartIndex`, `offsetToLine0`, `offsetToCol`,
   extension.ts:4056-4088, identically at 948/2572)
========================================================= -/

/-- The accumulating pass of `buildLineStartIndex`: walking the text from
index `i`, every `text.charCodeAt(pos) === 10` pushes `pos + 1`. -/
def lineStartsFrom : List Char → Nat → List Nat
  | [], _ => []
  | c :: cs, i =>
    if c = '\n' then (i + 1) :: lineStartsFrom cs (i + 1)
    else lineStartsFrom cs (i + 1)

/-- Function `buildLineStartIndex` (extension.ts:4056): `[0]` followed by the
position after each newline. -/
def buildLineStartIndex (text : String) : List Nat :=
  0 :: lineStartsFrom text.data 0

/-- The `while (lo <= hi)` binary search shared *verbatim* (up to the
array being indexed) by `offsetToLine0` (extension.ts:4066) and the
`isExcluded` closure (extension.ts:4344): find the greatest index whose
value `f` is `≤ key`, keeping the running best in `ans`.  The loop
variables are JS numbers, hence `Int`; the fuel strictly dominates the
shrinking interval `hi + 1 - lo`, so the fuel-out branch is unreachable
from the wrappers below (which pass `length + 1`). -/
def bsearchGreatestLE (f : Nat → Nat) (key : Nat) :
    Nat → Int → Int → Int → Int
  | 0, _, _, ans => ans
  | fuel + 1, lo, hi, ans =>
    if lo ≤ hi then
      let mid := (lo + hi) / 2
      if f mid.toNat ≤ key then bsearchGreatestLE f key fuel (mid + 1) hi mid
      else bsearchGreatestLE f key fuel lo (mid - 1) ans
    else ans

/-- Function `offsetToLine0` (extension.ts:4066): `lo = 0`, `hi = length - 1`,
`ans = 0`; the probe reads `lineStarts[mid]`. -/
def offsetToLine0 (lineStarts : List Nat) (offset : Nat) : Int :=
  bsearchGreatestLE (fun j => lineStarts.getD j 0) offset
    (lineStarts.length + 1) 0 ((lineStarts.length : Int) - 1) 0

/-- Function `offsetToCol` (extension.ts:4084): `Math.max(0, offset - start)` where
`start = lineStarts[line0] ?? 0`. -/
def offsetToCol (lineStarts : List Nat) (offset : Nat) : Int :=
  let line0 := offsetToLine0 lineStarts offset
  let start := lineStarts.getD line0.toNat 0
  max 0 ((offset : Int) - (start : Int))

/- =========================================================
   Exclusion spans and the literal pass
   (extension.ts:4282-4303, 4344-4365, 4417-4460)
========================================================= -/

/-- One recorded exclusion span `{ start, end }` (the value range of a
variable definition); `end` is spelled `stop` (`end` is a Lean keyword). -/
structure Span where
  start : Nat
  stop : Nat
deriving DecidableEq, Repr

/-- Function `isExcluded` (extension.ts:4344): binary-search the sorted spans for
the last span whose `start ≤ start`; report an overlap of the candidate
range with that single span (`start < s.end && end > s.start`). -/
def isExcluded (spans : List Span) (s e : Nat) : Bool :=
  let idx := bsearchGreatestLE (fun j => (spans.getD j ⟨0, 0⟩).start) s
    (spans.length + 1) 0 ((spans.length : Int) - 1) (-1)
  if idx < 0 then false
  else
    let sp := spans.getD idx.toNat ⟨0, 0⟩
    decide (s < sp.stop ∧ e > sp.start)

/-- One match of a literal color regex (hex/rgb/hsl): matched text and
`m.index`.  The regex engine itself is outside the embedding; the pass
below consumes its match list. -/
structure LitMatch where
  value : String
  start : Nat
deriving DecidableEq, Repr

/-- The occurrence record built for a surviving literal match
(extension.ts:4426-4459); the context extractor (`findCssContext` /
`findJsxScopeAround` + `findJsPropertyKeyBeforeCol` dispatch) is the
parameter `ctx`. -/
def emitLiteral (lineStarts : List Nat) (file : String)
    (ctx : Nat → Option String × Option String) (m : LitMatch) : ColorOccur :=
  let startOffset := m.start
  let endOffset := m.start + m.value.length
  let line0 := offsetToLine0 lineStarts startOffset
  let line := line0 + 1
  let sc := ctx startOffset
  .literal m.value file
    ⟨line, offsetToCol lineStarts startOffset, offsetToCol lineStarts endOffset⟩
    ⟨false, sc.1, sc.2, line⟩

/-- The literal scanning loops (steps 3-5 of
`scanTextForColorOccurrences`, extension.ts:4417, 4463, 4509 — identical
up to the regex): a match contained in an exclusion span is skipped. -/
def literalPass (spans : List Span) (lineStarts : List Nat) (file : String)
    (ctx : Nat → Option String × Option String) (ms : List LitMatch) :
    List ColorOccur :=
  ms.filterMap fun m =>
    if isExcluded spans m.start (m.start + m.value.length) then none
    else some (emitLiteral lineStarts file ctx m)

/- =========================================================
   Global variable table and the var-reference pass
   (extension.ts:3304-3323, 4236-4253, 4368-4414)
========================================================= -/

/-- Type `VarDef` (extension.ts:3154). -/
structure VarDef where
  name : String
  value : String
deriving DecidableEq, Repr

/-- Lookup `Map.get` on the insertion-ordered name→value table (keys are unique
by construction, so the first match is the only one). -/
def lookupVar : List (String × String) → String → Option String
  | [], _ => none
  | p :: rest, name => if p.1 = name then some p.2 else lookupVar rest name

/-- Loop `for (const d of defs) if (!globalVarValueByName.has(d.name)) set(...)`
(extension.ts:3318-3322). -/
def addVarDefs (table : List (String × String)) (defs : List VarDef) :
    List (String × String) :=
  defs.foldl (fun t d =>
    if (lookupVar t d.name).isSome then t else t ++ [(d.name, d.value)]) table

/-- Pass 1 of `render` (extension.ts:3304-3323): fold the per-file
definition lists (a `none` is a file whose `readUriText` threw, which
contributes nothing) into the first-writer-wins global table. -/
def collectGlobalVars (files : List (Option (List VarDef))) :
    List (String × String) :=
  files.foldl (fun table fileDefs =>
    match fileDefs with
    | none => table
    | some defs => addVarDefs table defs) []

/-- One match of `cssVarRefRegex` (`var(--name)`): captured name,
`m.index` and the matched length. -/
structure VarRefMatch where
  name : String
  start : Nat
  len : Nat
deriving DecidableEq, Repr

/-- Step 2 of `scanTextForColorOccurrences` (extension.ts:4368-4414):
resolve each `var(--x)` match against the global table;
`if (!resolved) continue` drops unresolved names (and the JS-falsy empty
string). -/
def scanVarRefs (table : List (String × String)) (lineStarts : List Nat)
    (file : String) (ctx : Nat → Option String × Option String)
    (ms : List VarRefMatch) : List ColorOccur :=
  ms.filterMap fun m =>
    match lookupVar table m.name with
    | none => none
    | some resolved =>
      if resolved = "" then none
      else
        let line0 := offsetToLine0 lineStarts m.start
        let line := line0 + 1
        let sc := ctx m.start
        some (.var m.name resolved file
          ⟨line, offsetToCol lineStarts m.start,
           offsetToCol lineStarts (m.start + m.len)⟩
          ⟨false, sc.1, sc.2, line⟩)

/- =========================================================
   Import graph (extension.ts:4582-4748; the second revision's
   `isFollowable` at 2973 differs and is embedded under `ThemeVariant`)
========================================================= -/

/-- Predicate `pre.isPrefixOf s` on raw characters: the meaning of JavaScript
`spec.startsWith(pre)`. -/
def charsPre : List Char → List Char → Bool
  | [], _ => true
  | _ :: _, [] => false
  | p :: ps, c :: cs => p = c && charsPre ps cs

/-- JavaScript `s.startsWith(pre)`. -/
def jsStartsWith (s pre : String) : Bool :=
  charsPre pre.data s.data

/-- The `kind` of an import specifier: `"js" | "css"`. -/
inductive ImportKind where
  | js
  | css
deriving DecidableEq, Repr

/-- Test `kind === "css"`. -/
def ImportKind.isCss : ImportKind → Bool
  | .css => true
  | .js => false

/-- Type `ImportSpec` (extension.ts:4582). -/
structure ImportSpec where
  spec : String
  kind : ImportKind
deriving DecidableEq, Repr

/-- Function `isFollowable` of the third revision (extension.ts:4619): the
style-sheet fallback accepts any specifier not starting with `.`, `@` or
`~`. -/
def isFollowable (spec : String) (kind : ImportKind) : Bool :=
  if jsStartsWith spec "./" || jsStartsWith spec "../" then true
  else if jsStartsWith spec "/" then true
  else if jsStartsWith spec "@/" || jsStartsWith spec "~/" then true
  else if kind.isCss && !jsStartsWith spec "." && !jsStartsWith spec "@"
      && !jsStartsWith spec "~" then true
  else false

/-- The host environment of one scan pass: `readUriText` wrapped in its
`try/catch` (`none` = the read threw), `findImports` (the four
statement-shape regexes), `resolveImportCandidates` (URI joining lives
in the host) and the `exists` stat probe. -/
structure ScanEnv where
  readText : String → Option String
  findImports : String → List ImportSpec
  resolve : String → String → String → ImportKind → List String
  fsExists : String → Bool

/-- Loop `for (const c of candidates) if (await exists(c)) ... queue.push(c);
break; }`: the first existing candidate, if any. -/
def firstExisting (env : ScanEnv) : List String → Option String
  | [] => none
  | c :: rest => if env.fsExists c then some c else firstExisting env rest

/-- Everything one dequeued file contributes to the queue
(extension.ts:4723-4744): nothing if the read throws, otherwise the first
existing candidate of each followable import. -/
def childrenOf (env : ScanEnv) (wsRoot uri : String) : List String :=
  match env.readText uri with
  | none => []
  | some text =>
    (env.findImports text).filterMap fun imp =>
      if isFollowable imp.spec imp.kind then
        firstExisting env (env.resolve uri wsRoot imp.spec imp.kind)
      else none

/-- The `visited.has(key) → continue` iterations of the BFS loop, folded:
shift entries off the queue until one is unvisited (the visited key is
`uri.toString()`, the identity here). -/
def drainVisited : List String → List String → Option (String × List String)
  | [], _ => none
  | u :: rest, visited =>
    if u ∈ visited then drainVisited rest visited else some (u, rest)

/-- The `while (queue.length && out.length < maxFiles)` loop of
`collectImportGraph` (extension.ts:4712-4745).  The recursion is on
`budget = maxFiles - out.length`, the only quantity the guard consumes:
skipping visited entries does not change `out`, so those iterations are
folded into `drainVisited`, and each visit grows `out` by exactly one. -/
def bfsLoop (env : ScanEnv) (wsRoot : String) :
    Nat → List String → List String → List String → List String
  | 0, _, _, out => out
  | budget + 1, queue, visited, out =>
    match drainVisited queue visited with
    | none => out
    | some (uri, rest) =>
        bfsLoop env wsRoot budget (rest ++ childrenOf env wsRoot uri)
          (uri :: visited) (out ++ [uri])

/-- Function `collectImportGraph` (extension.ts:4707, identically at 1357/3043):
breadth-first from the root, visited-set keyed by the canonical URI
string, capped at `maxFiles` collected files. -/
def collectImportGraph (env : ScanEnv) (wsRoot root : String)
    (maxFiles : Nat) : List String :=
  bfsLoop env wsRoot maxFiles [root] [] []

/-- Reachability along `childrenOf`: the transitive closure of the
explicit-import graph actually traversed (unreadable files have no
children, matching the `catch → continue`). -/
inductive Reaches (env : ScanEnv) (wsRoot : String) : String → String → Prop
  | refl (u : String) : Reaches env wsRoot u u
  | step {u v w : String} : Reaches env wsRoot u v →
      w ∈ childrenOf env wsRoot v → Reaches env wsRoot u w

/-- The spec's cycle scenario: `a.css` imports `b.css`, `b.css` imports
`a.css`, both files exist and read successfully. -/
def cycleEnv : ScanEnv where
  readText := fun uri =>
    if uri = "a.css" then some "@import \"./b.css\";"
    else if uri = "b.css" then some "@import \"./a.css\";"
    else none
  findImports := fun text =>
    if text = "@import \"./b.css\";" then [⟨"./b.css", ImportKind.css⟩]
    else if text = "@import \"./a.css\";" then [⟨"./a.css", ImportKind.css⟩]
    else []
  resolve := fun _ _ spec _ =>
    if spec = "./b.css" then ["b.css"]
    else if spec = "./a.css" then ["a.css"]
    else []
  fsExists := fun uri => if uri = "a.css" then true
    else if uri = "b.css" then true else false

/-- A three-file chain `a.css → b.css → c.css` used to witness the cap:
its closure (3 files) exceeds a cap of 2. -/
def chainEnv : ScanEnv where
  readText := fun uri =>
    if uri = "a.css" then some "@import \"./b.css\";"
    else if uri = "b.css" then some "@import \"./c.css\";"
    else if uri = "c.css" then some ""
    else none
  findImports := fun text =>
    if text = "@import \"./b.css\";" then [⟨"./b.css", ImportKind.css⟩]
    else if text = "@import \"./c.css\";" then [⟨"./c.css", ImportKind.css⟩]
    else []
  resolve := fun _ _ spec _ =>
    if spec = "./b.css" then ["b.css"]
    else if spec = "./c.css" then ["c.css"]
    else []
  fsExists := fun uri => if uri = "a.css" then true
    else if uri = "b.css" then true
    else if uri = "c.css" then true else false

/- =========================================================
   The second revision: theme classifier and theme-aware dedup
   (extension.ts:1423-3101)
========================================================= -/

namespace ThemeVariant

/-- Type `ThemeTag` (extension.ts:1431). -/
inductive ThemeTag where
  | dark
  | light
  | base
deriving DecidableEq, Repr

/-- The string a `ThemeTag` interpolates to inside the dedup key
template. -/
def themeStr : ThemeTag → String
  | .dark => "dark"
  | .light => "light"
  | .base => "base"

/-- Function `isFollowable` of the first and second revisions (extension.ts:1281,
2973): the style-sheet fallback rejects specifiers starting with `http`
or `data:`. -/
def isFollowable (spec : String) (kind : ImportKind) : Bool :=
  if jsStartsWith spec "./" || jsStartsWith spec "../" then true
  else if jsStartsWith spec "/" then true
  else if jsStartsWith spec "@/" || jsStartsWith spec "~/" then true
  else if kind.isCss && !jsStartsWith spec "http"
      && !jsStartsWith spec "data:" then true
  else false

/-- Does `*/` occur somewhere in the characters? -/
def hasStarSlash : List Char → Bool
  | '*' :: '/' :: _ => true
  | _ :: cs => hasStarSlash cs
  | [] => false

/-- Substitution `line.replace(blockCommentRegex, "")`: delete every lazily-closed block
comment; a `/*` with no later `*/` matches nothing (and then nothing
behind it can match either), so the rest is kept verbatim.  The `Bool`
is the inside-a-comment scanning mode. -/
def stripBlockComments : Bool → List Char → List Char
  | false, [] => []
  | false, '/' :: '*' :: rest =>
      if hasStarSlash rest then stripBlockComments true rest
      else '/' :: '*' :: rest
  | false, c :: cs => c :: stripBlockComments false cs
  | true, '*' :: '/' :: rest => stripBlockComments false rest
  | true, _ :: cs => stripBlockComments true cs
  | true, [] => []

/-- Substitution `line.replace(lineCommentRegex, "")`: truncate at the first `//`. -/
def cutLineComment : List Char → List Char
  | '/' :: '/' :: _ => []
  | c :: cs => c :: cutLineComment cs
  | [] => []

/-- Function `stripSameLineComments` (extension.ts:2615). -/
def stripSameLineComments (line : List Char) : List Char :=
  cutLineComment (stripBlockComments false line)

/-- Split `text.split` on CRLF-or-LF (extension.ts:2599). -/
def splitLines : List Char → List (List Char)
  | [] => [[]]
  | '\r' :: '\n' :: rest => [] :: splitLines rest
  | '\n' :: rest => [] :: splitLines rest
  | c :: cs =>
      match splitLines cs with
      | [] => [[c]]
      | l :: ls => (c :: l) :: ls

/-- Tail of the media trigger regex after the `[^{]*` gap:
`prefers-color-scheme\s*:\s*(dark|light)`; the alternation tries `dark`
first, as the regex engine does. -/
def schemeTail (cs : List Char) : Option ThemeTag :=
  if charsPre "prefers-color-scheme".data cs then
    match (cs.drop 20).dropWhile jsWhitespace with
    | ':' :: r2 =>
        let r3 := r2.dropWhile jsWhitespace
        if charsPre "dark".data r3 then some .dark
        else if charsPre "light".data r3 then some .light
        else none
    | _ => none
  else none

/-- One attempted match of
`@media[^{]*prefers-color-scheme\s*:\s*(dark|light)` starting at `i`:
`[^{]*` is greedy, so the largest viable gap end `j` wins. -/
def mediaMatchAt (l : List Char) (i : Nat) : Option ThemeTag :=
  if charsPre "@media".data (l.drop i) then
    ((List.range (l.length + 1)).reverse).findSome? fun j =>
      if i + 6 ≤ j then
        if ((l.drop (i + 6)).take (j - (i + 6))).all (fun c => c != '\x7b')
        then schemeTail (l.drop j)
        else none
      else none
  else none

/-- Leftmost match of the media trigger regex. -/
def detectMedia (l : List Char) : Option ThemeTag :=
  (List.range l.length).findSome? fun i => mediaMatchAt l i

/-- Is the next character a quote (the regex's closing `["']`)? -/
def quoteClose : List Char → Bool
  | c :: _ => c = '"' || c = '\x27'
  | [] => false

/-- Tail of the root-attribute trigger regex after the `[^{]*` gap:
`data-theme-mode\s*=\s*["'](dark|light)["']`. -/
def themeModeTail (cs : List Char) : Option ThemeTag :=
  if charsPre "data-theme-mode".data cs then
    match (cs.drop 15).dropWhile jsWhitespace with
    | '=' :: r2 =>
        match r2.dropWhile jsWhitespace with
        | q :: r3 =>
            if q = '"' || q = '\x27' then
              if charsPre "dark".data r3 && quoteClose (r3.drop 4) then
                some .dark
              else if charsPre "light".data r3 && quoteClose (r3.drop 5) then
                some .light
              else none
            else none
        | [] => none
    | _ => none
  else none

/-- One attempted match of
`:root[^{]*data-theme-mode\s*=\s*["'](dark|light)["']` starting at `i`. -/
def rootAttrMatchAt (l : List Char) (i : Nat) : Option ThemeTag :=
  if charsPre ":root".data (l.drop i) then
    ((List.range (l.length + 1)).reverse).findSome? fun j =>
      if i + 5 ≤ j then
        if ((l.drop (i + 5)).take (j - (i + 5))).all (fun c => c != '\x7b')
        then themeModeTail (l.drop j)
        else none
      else none
  else none

/-- Leftmost match of the root-attribute trigger regex. -/
def detectRootAttr (l : List Char) : Option ThemeTag :=
  (List.range l.length).findSome? fun i => rootAttrMatchAt l i

/-- Function `detectThemeTrigger` (extension.ts:2620): lowercase the line, try the
`prefers-color-scheme` media pattern, then `:root[data-theme-mode=...]`. -/
def detectThemeTrigger (line : List Char) : Option ThemeTag :=
  let l := line.map Char.toLower
  match detectMedia l with
  | some t => some t
  | none => detectRootAttr l

/-- Function `currentTheme` (extension.ts:2605): nearest explicit tag from the
top of the stack (the head here), defaulting to `base`. -/
def currentTheme : List (Option ThemeTag) → ThemeTag
  | [] => .base
  | some t :: _ => t
  | none :: rest => currentTheme rest

/-- Pushing the inherit marker `null` `n` times. -/
def pushInherits (stack : List (Option ThemeTag)) :
    Nat → List (Option ThemeTag)
  | 0 => stack
  | n + 1 => pushInherits (none :: stack) n

/-- The `for (k in 0..opens)` push loop (extension.ts:2649): the first
brace of the line pushes the line's trigger (or `null`), all the others
push `null`. -/
def pushOpens (trigger : Option ThemeTag) (stack : List (Option ThemeTag)) :
    Nat → List (Option ThemeTag)
  | 0 => stack
  | n + 1 => pushInherits (trigger :: stack) n

/-- The `for (k in 0..closes)` pop loop (extension.ts:2657): popping an
empty stack does nothing. -/
def popCloses (stack : List (Option ThemeTag)) :
    Nat → List (Option ThemeTag)
  | 0 => stack
  | n + 1 =>
      match stack with
      | [] => popCloses [] n
      | _ :: rest => popCloses rest n

/-- One iteration of the line loop of `computeThemeByLine`
(extension.ts:2638-2662): strip same-line comments, detect the trigger,
then push per `{` and pop per `}`. -/
def processLine (stack : List (Option ThemeTag)) (raw : List Char) :
    List (Option ThemeTag) :=
  let line := stripSameLineComments raw
  let trigger := detectThemeTrigger line
  let opens := line.count '\x7b'
  let closes := line.count '\x7d'
  popCloses (pushOpens trigger stack opens) closes

/-- The line loop: `themeByLine[i] = currentTheme()` is assigned before
the braces of line `i` are processed. -/
def themeLinesGo (stack : List (Option ThemeTag)) :
    List (List Char) → List ThemeTag
  | [] => []
  | l :: ls => currentTheme stack :: themeLinesGo (processLine stack l) ls

/-- Function `computeThemeByLine` (extension.ts:2598). -/
def computeThemeByLine (text : String) : List ThemeTag :=
  themeLinesGo [] (splitLines text.data)

/-- Type `UsageHit` (extension.ts:1446). -/
structure UsageHit where
  file : String
  line : Int
  scope : String
  prop : String
  sample : String
deriving DecidableEq, Repr

/-- Type `ColorHit` of the second revision (extension.ts:1454): variable hits
carry a theme tag, literal hits do not. -/
inductive ColorHit where
  | var (name value file : String) (range : HitRange)
      (usages : List UsageHit) (theme : ThemeTag)
  | literal (value file : String) (range : HitRange)
      (usages : List UsageHit)
deriving DecidableEq, Repr

/-- Test `h.kind === "var"`. -/
def ColorHit.isVar : ColorHit → Bool
  | .var .. => true
  | .literal .. => false

/-- The dedup key of the second revision's `render` (extension.ts:1713
and 1719): the whole template string is lowercased, and the theme tag is
part of a variable hit's key. -/
def hitKey (h : ColorHit) : String :=
  match h with
  | .var name value file _ _ theme =>
      jsToLower (file ++ "|" ++ themeStr theme ++ "|" ++ name ++ "=" ++
        normalizeColorKey value)
  | .literal value file _ _ =>
      jsToLower (file ++ "|" ++ normalizeColorKey value)

/-- The de-dup loop (extension.ts:1704-1725): two seen-sets; the first
hit of a key is kept, later hits of the same key are dropped. -/
def mergeHitsGo (varSeen litSeen : List String) :
    List ColorHit → List ColorHit
  | [] => []
  | h :: rest =>
      match h with
      | .var .. =>
          if hitKey h ∈ varSeen then mergeHitsGo varSeen litSeen rest
          else h :: mergeHitsGo (hitKey h :: varSeen) litSeen rest
      | .literal .. =>
          if hitKey h ∈ litSeen then mergeHitsGo varSeen litSeen rest
          else h :: mergeHitsGo varSeen (hitKey h :: litSeen) rest

/-- The `merged` list of the second revision's `render`. -/
def mergeHits (hits : List ColorHit) : List ColorHit :=
  mergeHitsGo [] [] hits

/-- The spec's theme-classification scenario: a dark-mode media block
containing a `--bg` definition (line index 2), and a top-level `:root`
defining the same name (line index 6). -/
def exampleCss : String :=
  "@media (prefers-color-scheme: dark) \x7b\n  :root \x7b\n    --bg: #000000;\n  \x7d\n\x7d\n:root \x7b\n  --bg: #ffffff;\n\x7d"

end ThemeVariant

/-- The spec's literal-dedup scenario: `#FFF` on line 3 and `#fff` on
line 9 of one file. -/
def fffUpper : ColorOccur :=
  .literal "#FFF" "styles.css" ⟨3, 9, 13⟩
    ⟨false, some ".card", some "color", 3⟩

/-- The lowercase spelling on line 9. -/
def fffLower : ColorOccur :=
  .literal "#fff" "styles.css" ⟨9, 14, 18⟩
    ⟨false, some ".nav", some "background", 9⟩

/- =========================================================
   PROOFS START HERE
========================================================= -/

/- =========================================================
   PROOFS: the aggregation keeps every occurrence, appending matching
   occurrences to the single entry of their key.
========================================================= -/

lemma filter_key_singleton_pos (o : ColorOccur) (k : String)
    (h : makeColorKey o = k) :
    [o].filter (fun o' => makeColorKey o' = k) = [o] := by
  simp [List.filter_singleton, h]

lemma filter_key_singleton_neg (o : ColorOccur) (k : String)
    (h : ¬ makeColorKey o = k) :
    [o].filter (fun o' => makeColorKey o' = k) = [] := by
  simp [List.filter_singleton, h]

lemma aggInv_step (processed : List ColorOccur) (entries : List ColorEntry)
    (o : ColorOccur) (h : AggInv processed entries) :
    AggInv (processed ++ [o]) (insertOccurrence entries o) := by
  obtain ⟨hnd, hfilter, hcomplete⟩ := h
  by_cases hhit : entries.any (fun e => e.key = makeColorKey o)
  · have hmap : insertOccurrence entries o = entries.map (fun e =>
        if e.key = makeColorKey o then
          { e with occurrences := e.occurrences ++ [o] }
        else e) := by
      unfold insertOccurrence
      simp only [hhit, if_pos]
    refine ⟨?_, ?_, ?_⟩
    · have hkeys : (insertOccurrence entries o).map ColorEntry.key =
          entries.map ColorEntry.key := by
        rw [hmap, List.map_map]
        apply List.map_congr_left
        intro e _
        by_cases hk : e.key = makeColorKey o <;> simp [hk]
      rw [hkeys]; exact hnd
    · intro e he
      rw [hmap] at he
      rcases List.mem_map.mp he with ⟨e₀, he₀, rfl⟩
      by_cases hk : e₀.key = makeColorKey o
      · simp only [hk, if_pos]
        rw [List.filter_append, filter_key_singleton_pos o _ rfl]
        have hf := hfilter e₀ he₀
        rw [hk] at hf
        simp only [← hf]
      · simp only [hk, if_neg, not_false_iff]
        rw [List.filter_append,
          filter_key_singleton_neg o _ (fun hc => hk hc.symm),
          List.append_nil]
        exact hfilter e₀ he₀
    · intro o' ho'
      rw [hmap]
      rcases List.mem_append.mp ho' with h₁ | h₁
      · rcases hcomplete o' h₁ with ⟨e, he, hkey⟩
        by_cases hk : e.key = makeColorKey o
        · exact ⟨{ e with occurrences := e.occurrences ++ [o] },
            List.mem_map.mpr ⟨e, he, by simp [hk]⟩, hkey⟩
        · exact ⟨e, List.mem_map.mpr ⟨e, he, by simp [hk]⟩, hkey⟩
      · have h₂ : o' = o := List.mem_singleton.mp h₁
        rcases List.any_eq_true.mp hhit with ⟨e, he, hkey⟩
        have hkey' : e.key = makeColorKey o := of_decide_eq_true hkey
        refine ⟨{ e with occurrences := e.occurrences ++ [o] },
          List.mem_map.mpr ⟨e, he, by simp [hkey']⟩, by simp [hkey', h₂]⟩
  · -- miss: a fresh entry is appended
    have hmiss : ∀ e ∈ entries, ¬ e.key = makeColorKey o := by
      intro e he hc
      exact hhit (List.any_eq_true.mpr ⟨e, he, decide_eq_true hc⟩)
    have hmap : insertOccurrence entries o = entries ++
        [{ key := makeColorKey o, kind := o.kind, name := o.varName?,
           value := o.value, occurrences := [o] }] := by
      unfold insertOccurrence
      simp only [hhit, if_neg, not_false_iff, Bool.not_eq_true]
    refine ⟨?_, ?_, ?_⟩
    · rw [hmap, List.map_append]
      simp only [List.map_cons, List.map_nil]
      rw [List.nodup_append]
      refine ⟨hnd, List.nodup_singleton _, ?_⟩
      intro k hk hk'
      have h₂ : k = makeColorKey o := List.mem_singleton.mp hk'
      rcases List.mem_map.mp hk with ⟨e, he, hke⟩
      exact hmiss e he (hke.trans h₂)
    · intro e he
      rw [hmap] at he
      rcases List.mem_append.mp he with h₁ | h₁
      · rw [List.filter_append,
          filter_key_singleton_neg o _ (fun hc => hmiss e h₁ hc.symm),
          List.append_nil]
        exact hfilter e h₁
      · have h₂ := List.mem_singleton.mp h₁
        subst h₂
        rw [List.filter_append, filter_key_singleton_pos o _ rfl]
        have h3 : processed.filter
            (fun o' => makeColorKey o' = makeColorKey o) = [] := by
          rw [List.filter_eq_nil_iff]
          intro o' ho' hc
          rcases hcomplete o' ho' with ⟨e, he, hkey⟩
          exact hmiss e he (hkey.trans (of_decide_eq_true hc))
        simp only [h3, List.nil_append]
    · intro o' ho'
      rw [hmap]
      rcases List.mem_append.mp ho' with h₁ | h₁
      · rcases hcomplete o' h₁ with ⟨e, he, hkey⟩
        exact ⟨e, List.mem_append_left _ he, hkey⟩
      · have h₂ : o' = o := List.mem_singleton.mp h₁
        exact ⟨_, List.mem_append_right _ (List.mem_singleton_self _),
          by simp [h₂]⟩

lemma aggInv_foldl (occs : List ColorOccur) :
    ∀ processed entries, AggInv processed entries →
      AggInv (processed ++ occs) (occs.foldl insertOccurrence entries) := by
  induction occs with
  | nil => intro processed entries h; simpa using h
  | cons o rest ih =>
      intro processed entries h
      have h' := aggInv_step processed entries o h
      have := ih (processed ++ [o]) (insertOccurrence entries o) h'
      simpa [List.foldl_cons, List.append_assoc] using this

lemma aggregateEntries_inv (occs : List ColorOccur) :
    AggInv occs (aggregateEntries occs) := by
  have h0 : AggInv [] [] := by
    refine ⟨List.nodup_nil, ?_, ?_⟩ <;> simp
  have := aggInv_foldl occs [] [] h0
  simpa [aggregateEntries] using this

lemma aggregate_complete (occs : List ColorOccur) :
    ∀ o ∈ occs, ∃ e ∈ aggregateEntries occs, e.key = makeColorKey o :=
  (aggregateEntries_inv occs).2.2

lemma aggregate_filter (occs : List ColorOccur) :
    ∀ e ∈ aggregateEntries occs,
      e.occurrences = occs.filter (fun o => makeColorKey o = e.key) :=
  (aggregateEntries_inv occs).2.1

lemma mem_entry_iff_key (occs : List ColorOccur) (e : ColorEntry)
    (he : e ∈ aggregateEntries occs) (o : ColorOccur) :
    o ∈ e.occurrences ↔ (o ∈ occs ∧ makeColorKey o = e.key) := by
  rw [aggregate_filter occs e he]
  constructor
  · intro h
    have := List.mem_filter.mp h
    exact ⟨this.1, of_decide_eq_true this.2⟩
  · intro ⟨h1, h2⟩
    exact List.mem_filter.mpr ⟨h1, decide_eq_true h2⟩

/-- C3: during aggregation, an occurrence whose dedup key matches an
existing `ColorEntry` is appended to that entry's occurrence list, never
replacing or discarding prior occurrences — each entry holds exactly the
stream of matching occurrences, in order; in particular `#FFF` (line 3)
and `#fff` (line 9) of one file collapse into one entry holding both
occurrences. -/
theorem aggregation_appends_never_discards :
    (∀ (occs : List ColorOccur) (o : ColorOccur), o ∈ occs →
      ∃ e ∈ aggregateEntries occs, o ∈ e.occurrences ∧
        e.occurrences =
          occs.filter (fun o' => makeColorKey o' = makeColorKey o)) ∧
    aggregateEntries [fffUpper, fffLower] =
      [{ key := "lit:#fff", kind := ColorKind.literal, name := none,
         value := "#FFF", occurrences := [fffUpper, fffLower] }] := by
  constructor
  · intro occs o ho
    obtain ⟨e, he, hkey⟩ := aggregate_complete occs o ho
    refine ⟨e, he, ?_, ?_⟩
    · exact (mem_entry_iff_key occs e he o).mpr ⟨ho, hkey.symm⟩
    · rw [aggregate_filter occs e he, ← hkey]
  · decide

/-- Witness for C3 at the spec's `#FFF`/`#fff` scenario. -/
theorem aggregation_appends_never_discards_witness :
    fffUpper ∈ [fffUpper, fffLower] ∧
    ∃ e ∈ aggregateEntries [fffUpper, fffLower],
      fffUpper ∈ e.occurrences ∧
      e.occurrences = [fffUpper, fffLower].filter
        (fun o' => makeColorKey o' = makeColorKey fffUpper) :=
  ⟨by decide, aggregation_appends_never_discards.1
    [fffUpper, fffLower] fffUpper (by decide)⟩

lemma string_append_left_cancel {s t₁ t₂ : String}
    (h : s ++ t₁ = s ++ t₂) : t₁ = t₂ := by
  have hd : (s ++ t₁).data = (s ++ t₂).data := by rw [h]
  rw [String.data_append, String.data_append] at hd
  exact String.ext (List.append_cancel_left hd)

lemma makeColorKey_of_literal (o : ColorOccur)
    (h : o.kind = ColorKind.literal) :
    makeColorKey o = "lit:" ++ normalizeColorKey o.value := by
  cases o with
  | var _ _ _ _ _ => exact absurd h (by simp [ColorOccur.kind])
  | literal _ _ _ _ => rfl

/-- C10: two literal occurrences share one `ColorEntry` iff their value
strings agree after trimming, lowercasing and whitespace removal; no
further canonicalisation happens, so `#fff` and `#ffffff` always stay
two distinct entries. -/
theorem literal_entries_share_iff_normalized :
    (∀ (occs : List ColorOccur) (o₁ o₂ : ColorOccur),
        o₁ ∈ occs → o₂ ∈ occs →
        o₁.kind = ColorKind.literal → o₂.kind = ColorKind.literal →
        ((∃ e ∈ aggregateEntries occs,
            o₁ ∈ e.occurrences ∧ o₂ ∈ e.occurrences) ↔
          normalizeColorKey o₁.value = normalizeColorKey o₂.value)) ∧
    normalizeColorKey "#fff" ≠ normalizeColorKey "#ffffff" := by
  constructor
  · intro occs o₁ o₂ h₁ h₂ hk₁ hk₂
    constructor
    · rintro ⟨e, he, ho₁, ho₂⟩
      have e₁ := ((mem_entry_iff_key occs e he o₁).mp ho₁).2
      have e₂ := ((mem_entry_iff_key occs e he o₂).mp ho₂).2
      have hkeys : makeColorKey o₁ = makeColorKey o₂ := e₁.trans e₂.symm
      rw [makeColorKey_of_literal o₁ hk₁, makeColorKey_of_literal o₂ hk₂]
        at hkeys
      exact string_append_left_cancel hkeys
    · intro hnorm
      have hkeys : makeColorKey o₁ = makeColorKey o₂ := by
        rw [makeColorKey_of_literal o₁ hk₁, makeColorKey_of_literal o₂ hk₂,
          hnorm]
      obtain ⟨e, he, hkey⟩ := aggregate_complete occs o₁ h₁
      refine ⟨e, he, (mem_entry_iff_key occs e he o₁).mpr ⟨h₁, hkey.symm⟩,
        (mem_entry_iff_key occs e he o₂).mpr ⟨h₂, ?_⟩⟩
      rw [← hkeys]
      exact hkey.symm
  · decide

/-- Witness for C10 at the `#FFF`/`#fff` scenario. -/
theorem literal_entries_share_iff_normalized_witness :
    fffUpper ∈ [fffUpper, fffLower] ∧ fffLower ∈ [fffUpper, fffLower] ∧
    fffUpper.kind = ColorKind.literal ∧ fffLower.kind = ColorKind.literal ∧
    ((∃ e ∈ aggregateEntries [fffUpper, fffLower],
        fffUpper ∈ e.occurrences ∧ fffLower ∈ e.occurrences) ↔
      normalizeColorKey fffUpper.value = normalizeColorKey fffLower.value) :=
  ⟨by decide, by decide, by decide, by decide,
    literal_entries_share_iff_normalized.1 [fffUpper, fffLower]
      fffUpper fffLower (by decide) (by decide) (by decide) (by decide)⟩

lemma lookupVar_append (t : List (String × String)) (p : String × String)
    (name : String) :
    lookupVar (t ++ [p]) name =
      match lookupVar t name with
      | some v => some v
      | none => if p.1 = name then some p.2 else none := by
  induction t with
  | nil => simp [lookupVar]
  | cons q rest ih =>
      by_cases h : q.1 = name
      · simp [lookupVar, h]
      · simpa [lookupVar, h] using ih

lemma addVarDefs_lookup (defs : List VarDef) :
    ∀ (t : List (String × String)) (name : String),
      lookupVar (addVarDefs t defs) name =
        match lookupVar t name with
        | some v => some v
        | none => (defs.find? (fun d => d.name = name)).map VarDef.value := by
  induction defs with
  | nil =>
      intro t name
      cases h : lookupVar t name <;> simp [addVarDefs, h]
  | cons d rest ih =>
      intro t name
      have hstep : addVarDefs t (d :: rest) =
          addVarDefs (if (lookupVar t d.name).isSome then t
            else t ++ [(d.name, d.value)]) rest := by
        simp [addVarDefs]
      rw [hstep]
      by_cases hhas : (lookupVar t d.name).isSome
      · simp only [hhas, if_pos]
        rw [ih t name]
        by_cases hn : d.name = name
        · subst hn
          obtain ⟨v, hv⟩ := Option.isSome_iff_exists.mp hhas
          simp [hv]
        · simp [List.find?, hn]
      · simp only [hhas, if_neg, not_false_iff, Bool.not_eq_true]
        rw [ih (t ++ [(d.name, d.value)]) name, lookupVar_append]
        have hnone : lookupVar t d.name = none :=
          Option.not_isSome_iff_eq_none.mp hhas
        by_cases hn : d.name = name
        · subst hn
          simp [hnone, List.find?]
        · cases h : lookupVar t name <;> simp [List.find?, hn, h]

lemma find?_append_vardefs (l₁ l₂ : List VarDef) (name : String) :
    (l₁ ++ l₂).find? (fun d => d.name = name) =
      match l₁.find? (fun d => d.name = name) with
      | some v => some v
      | none => l₂.find? (fun d => d.name = name) := by
  induction l₁ with
  | nil => simp [List.find?]
  | cons d rest ih =>
      by_cases h : d.name = name
      · simp [List.find?, h]
      · simpa [List.find?, h] using ih

/-- C4: the global variable table is first-writer-wins: the value looked
up for a name is the one of the first definition in traversal order over
the whole closure (readable files only); later definitions of the same
name leave the table unchanged. -/
theorem collectGlobalVars_first_writer_wins
    (files : List (Option (List VarDef))) (name : String) :
    lookupVar (collectGlobalVars files) name =
      (((files.filterMap id).flatten).find?
        (fun d => d.name = name)).map VarDef.value := by
  suffices h : ∀ (t : List (String × String)),
      lookupVar (files.foldl (fun table fileDefs =>
        match fileDefs with
        | none => table
        | some defs => addVarDefs table defs) t) name =
        match lookupVar t name with
        | some v => some v
        | none => (((files.filterMap id).flatten).find?
            (fun d => d.name = name)).map VarDef.value by
    have := h []
    simpa [collectGlobalVars, lookupVar] using this
  induction files with
  | nil =>
      intro t
      cases h : lookupVar t name <;> simp [List.find?, h]
  | cons file rest ih =>
      intro t
      cases file with
      | none => simpa using ih t
      | some defs =>
          have h1 := ih (addVarDefs t defs)
          have hfold : (some defs :: rest).foldl (fun table fileDefs =>
              match fileDefs with
              | none => table
              | some defs => addVarDefs table defs) t =
            rest.foldl (fun table fileDefs =>
              match fileDefs with
              | none => table
              | some defs => addVarDefs table defs) (addVarDefs t defs) := rfl
          rw [hfold, h1, addVarDefs_lookup]
          have h2 : ((some defs :: rest).filterMap id).flatten =
              defs ++ (rest.filterMap id).flatten := by simp
          rw [h2, find?_append_vardefs]
          cases h : lookupVar t name <;>
            cases h3 : defs.find? (fun d => d.name = name) <;> simp [h, h3]

/-- C5: a `var(--name)` reference whose name has no entry in the global
table yields no `ColorOccurrence` at all — no emitted record of the
reference pass carries that name. -/
theorem unresolved_var_ref_emits_nothing
    (table : List (String × String)) (lineStarts : List Nat)
    (file : String) (ctx : Nat → Option String × Option String)
    (ms : List VarRefMatch) (name : String)
    (hnone : lookupVar table name = none) :
    ∀ o ∈ scanVarRefs table lineStarts file ctx ms,
      o.varName? ≠ some name := by
  intro o ho hc
  unfold scanVarRefs at ho
  rcases List.mem_filterMap.mp ho with ⟨m, _, hemit⟩
  cases hl : lookupVar table m.name with
  | none =>
      simp only [hl] at hemit
      exact Option.noConfusion hemit
  | some v =>
      simp only [hl] at hemit
      by_cases hv : v = ""
      · simp only [hv, if_pos] at hemit
        exact Option.noConfusion hemit
      · simp only [hv, if_neg, not_false_iff, Option.some.injEq] at hemit
        have hvn : o.varName? = some m.name := by
          rw [← hemit]
          rfl
        rw [hc] at hvn
        have hmn : m.name = name := (Option.some.injEq _ _).mp hvn.symm
        rw [hmn] at hl
        rw [hl] at hnone
        cases hnone

/-- Witness for C5: `var(--undefined-token)` against an empty table. -/
theorem unresolved_var_ref_emits_nothing_witness :
    lookupVar [] "--undefined-token" = none ∧
    ∀ o ∈ scanVarRefs [] [0] "app.css" (fun _ => (none, none))
        [⟨"--undefined-token", 0, 22⟩],
      o.varName? ≠ some "--undefined-token" :=
  ⟨rfl, unresolved_var_ref_emits_nothing [] [0] "app.css"
    (fun _ => (none, none)) [⟨"--undefined-token", 0, 22⟩]
    "--undefined-token" rfl⟩

/-- Correctness of the shared binary search: under the loop invariants it
returns `-1`-or-valid, and every index whose value is `≤ key` is `≤` the
result (so the result is the greatest such index when one exists). -/
lemma bsearch_spec (f : Nat → Nat) (key : Nat) (L : Nat)
    (hmono : ∀ j k : Nat, j ≤ k → k < L → f j ≤ f k) :
    ∀ (fuel : Nat) (lo hi ans : Int),
      0 ≤ lo →
      ans ≤ lo →
      hi < (L : Int) →
      hi + 1 - lo ≤ (fuel : Int) →
      (ans = -1 ∨ (0 ≤ ans ∧ ans < (L : Int) ∧ f ans.toNat ≤ key)) →
      (∀ j : Nat, j < L → f j ≤ key →
        ((j : Int) ≤ ans ∨ (lo ≤ (j : Int) ∧ (j : Int) ≤ hi))) →
      (bsearchGreatestLE f key fuel lo hi ans = -1 ∨
        (0 ≤ bsearchGreatestLE f key fuel lo hi ans ∧
         bsearchGreatestLE f key fuel lo hi ans < (L : Int) ∧
         f (bsearchGreatestLE f key fuel lo hi ans).toNat ≤ key)) ∧
      (∀ j : Nat, j < L → f j ≤ key →
        (j : Int) ≤ bsearchGreatestLE f key fuel lo hi ans) := by
  intro fuel
  induction fuel with
  | zero =>
      intro lo hi ans hlo hanslo hhi hfuel hans hmax
      rw [bsearchGreatestLE]
      refine ⟨hans, ?_⟩
      intro j hj hfj
      rcases hmax j hj hfj with h | ⟨h1, h2⟩
      · exact h
      · omega
  | succ fl ih =>
      intro lo hi ans hlo hanslo hhi hfuel hans hmax
      rw [bsearchGreatestLE]
      by_cases hcmp : lo ≤ hi
      · rw [if_pos hcmp]
        have hmid1 : lo ≤ (lo + hi) / 2 := by omega
        have hmid2 : (lo + hi) / 2 ≤ hi := by omega
        by_cases hprobe : f ((lo + hi) / 2).toNat ≤ key
        · rw [if_pos hprobe]
          apply ih ((lo + hi) / 2 + 1) hi ((lo + hi) / 2)
          · omega
          · omega
          · exact hhi
          · omega
          · exact Or.inr ⟨by omega, by omega, hprobe⟩
          · intro j hj hfj
            rcases hmax j hj hfj with h | ⟨h1, h2⟩
            · left; omega
            · by_cases hjm : (j : Int) ≤ (lo + hi) / 2
              · left; exact hjm
              · right; omega
        · rw [if_neg hprobe]
          apply ih lo ((lo + hi) / 2 - 1) ans
          · exact hlo
          · exact hanslo
          · omega
          · omega
          · exact hans
          · intro j hj hfj
            rcases hmax j hj hfj with h | ⟨h1, h2⟩
            · left; exact h
            · right
              refine ⟨h1, ?_⟩
              by_contra hgt
              push_neg at hgt
              have hmj : ((lo + hi) / 2).toNat ≤ j := by omega
              have := hmono ((lo + hi) / 2).toNat j hmj hj
              omega
      · rw [if_neg hcmp]
        refine ⟨hans, ?_⟩
        intro j hj hfj
        rcases hmax j hj hfj with h | ⟨h1, h2⟩
        · exact h
        · omega

lemma lineStartsFrom_bounds :
    ∀ (cs : List Char) (i : Nat), ∀ x ∈ lineStartsFrom cs i, i < x := by
  intro cs
  induction cs with
  | nil => intro i x hx; simp [lineStartsFrom] at hx
  | cons c rest ih =>
      intro i x hx
      rw [lineStartsFrom] at hx
      by_cases hc : c = '\n'
      · rw [if_pos hc] at hx
        rcases List.mem_cons.mp hx with rfl | hx'
        · omega
        · have := ih (i + 1) x hx'
          omega
      · rw [if_neg hc] at hx
        have := ih (i + 1) x hx
        omega

lemma lineStartsFrom_pairwise :
    ∀ (cs : List Char) (i : Nat), (lineStartsFrom cs i).Pairwise (· < ·) := by
  intro cs
  induction cs with
  | nil => intro i; simp [lineStartsFrom]
  | cons c rest ih =>
      intro i
      rw [lineStartsFrom]
      by_cases hc : c = '\n'
      · rw [if_pos hc]
        refine List.pairwise_cons.mpr ⟨?_, ih (i + 1)⟩
        intro x hx
        exact lineStartsFrom_bounds rest (i + 1) x hx
      · rw [if_neg hc]
        exact ih (i + 1)

lemma buildLineStartIndex_pairwise (text : String) :
    (buildLineStartIndex text).Pairwise (· < ·) := by
  rw [buildLineStartIndex]
  refine List.pairwise_cons.mpr ⟨?_, lineStartsFrom_pairwise text.data 0⟩
  intro x hx
  exact lineStartsFrom_bounds text.data 0 x hx

lemma pairwise_lt_getD_mono {l : List Nat} (hp : l.Pairwise (· < ·)) :
    ∀ j k : Nat, j ≤ k → k < l.length → l.getD j 0 ≤ l.getD k 0 := by
  intro j k hjk hk
  rcases Nat.lt_or_ge j k with h | h
  · have hj : j < l.length := lt_trans h hk
    have hget := List.pairwise_iff_get.mp hp ⟨j, hj⟩ ⟨k, hk⟩ h
    rw [List.getD_eq_getElem l 0 hj, List.getD_eq_getElem l 0 hk]
    simpa [List.get_eq_getElem] using le_of_lt hget
  · have : j = k := le_antisymm hjk h
    subst this
    exact le_refl _

/-- C9: over the index built from any text, `offsetToLine0` returns the
greatest line index whose start is `≤ n`, and `offsetToCol` returns `n`
minus that line's start; both are total on `0 ≤ n ≤ text.length`. -/
theorem offsetToLine0_greatest (text : String) (n : Nat)
    (_hn : n ≤ text.length) :
    0 ≤ offsetToLine0 (buildLineStartIndex text) n ∧
    offsetToLine0 (buildLineStartIndex text) n <
      ((buildLineStartIndex text).length : Int) ∧
    (buildLineStartIndex text).getD
      (offsetToLine0 (buildLineStartIndex text) n).toNat 0 ≤ n ∧
    (∀ j : Nat, j < (buildLineStartIndex text).length →
      (buildLineStartIndex text).getD j 0 ≤ n →
      (j : Int) ≤ offsetToLine0 (buildLineStartIndex text) n) ∧
    offsetToCol (buildLineStartIndex text) n =
      (n : Int) - ((buildLineStartIndex text).getD
        (offsetToLine0 (buildLineStartIndex text) n).toNat 0 : Int) := by
  set ls := buildLineStartIndex text with hls
  have hlen : 0 < ls.length := by
    rw [hls, buildLineStartIndex]
    simp
  have hzero : ls.getD 0 0 = 0 := by
    rw [hls, buildLineStartIndex]
    rfl
  have hmono : ∀ j k : Nat, j ≤ k → k < ls.length →
      ls.getD j 0 ≤ ls.getD k 0 :=
    pairwise_lt_getD_mono (hls ▸ buildLineStartIndex_pairwise text)
  have hspec := bsearch_spec (fun j => ls.getD j 0) n ls.length hmono
    (ls.length + 1) 0 ((ls.length : Int) - 1) 0
    (by omega) (by omega) (by omega) (by push_cast; omega)
    (Or.inr ⟨by omega, by exact_mod_cast hlen,
      le_of_eq_of_le hzero (Nat.zero_le n)⟩)
    (by intro j hj hfj; right; constructor <;> omega)
  have hres : offsetToLine0 ls n =
      bsearchGreatestLE (fun j => ls.getD j 0) n (ls.length + 1) 0
        ((ls.length : Int) - 1) 0 := rfl
  obtain ⟨hval, hmax⟩ := hspec
  rw [← hres] at hval hmax
  have hnotneg : ¬ offsetToLine0 ls n = -1 := by
    intro hcontra
    have := hmax 0 hlen (le_of_eq_of_le hzero (Nat.zero_le n))
    omega
  rcases hval with h | ⟨h1, h2, h3⟩
  · exact absurd h hnotneg
  · refine ⟨h1, h2, h3, hmax, ?_⟩
    rw [offsetToCol]
    have : ls.getD (offsetToLine0 ls n).toNat 0 ≤ n := h3
    omega

/-- Witness for C9 at `text = "ab\ncd\ne"`, `n = 4` (line 1, column 1). -/
theorem offsetToLine0_greatest_witness :
    (4 : Nat) ≤ ("ab\ncd\ne" : String).length ∧
    (0 ≤ offsetToLine0 (buildLineStartIndex "ab\ncd\ne") 4 ∧
     offsetToLine0 (buildLineStartIndex "ab\ncd\ne") 4 <
       ((buildLineStartIndex "ab\ncd\ne").length : Int) ∧
     (buildLineStartIndex "ab\ncd\ne").getD
       (offsetToLine0 (buildLineStartIndex "ab\ncd\ne") 4).toNat 0 ≤ 4 ∧
     (∀ j : Nat, j < (buildLineStartIndex "ab\ncd\ne").length →
       (buildLineStartIndex "ab\ncd\ne").getD j 0 ≤ 4 →
       (j : Int) ≤ offsetToLine0 (buildLineStartIndex "ab\ncd\ne") 4) ∧
     offsetToCol (buildLineStartIndex "ab\ncd\ne") 4 =
       (4 : Int) - ((buildLineStartIndex "ab\ncd\ne").getD
         (offsetToLine0 (buildLineStartIndex "ab\ncd\ne") 4).toNat 0 : Int)) :=
  ⟨by decide, offsetToLine0_greatest "ab\ncd\ne" 4 (by decide)⟩

lemma filterMap_if_eq_filter_map {A B : Type} (c : A → Bool) (g : A → B) :
    ∀ l : List A, (l.filterMap fun a => if c a then none else some (g a)) =
      (l.filter fun a => !c a).map g := by
  intro l
  induction l with
  | nil => rfl
  | cons a rest ih =>
      by_cases h : c a
      · simp [List.filterMap_cons, List.filter_cons, h, ih]
      · simp [List.filterMap_cons, List.filter_cons, h, ih]

lemma spans_start_mono (spans : List Span)
    (hdisj : spans.Pairwise (fun a b => a.stop ≤ b.start))
    (hpos : ∀ t ∈ spans, t.start < t.stop) :
    ∀ j k : Nat, j ≤ k → k < spans.length →
      (spans.getD j ⟨0, 0⟩).start ≤ (spans.getD k ⟨0, 0⟩).start := by
  intro j k hjk hk
  rcases Nat.lt_or_ge j k with h | h
  · have hj : j < spans.length := lt_trans h hk
    have hget := List.pairwise_iff_get.mp hdisj ⟨j, hj⟩ ⟨k, hk⟩ h
    have hjpos := hpos (spans.get ⟨j, hj⟩) (spans.get_mem _ _)
    rw [List.getD_eq_getElem spans ⟨0, 0⟩ hj, List.getD_eq_getElem spans ⟨0, 0⟩ hk]
    simp only [List.get_eq_getElem] at hget hjpos
    omega
  · have : j = k := le_antisymm hjk h
    subst this
    exact le_refl _

/-- C6: a literal match whose span is contained in one of the (sorted,
pairwise-disjoint) exclusion spans is reported excluded by the binary
search of `isExcluded`, and the literal pass emits exactly the
non-excluded matches. -/
theorem excluded_literals_skipped :
    (∀ (spans : List Span) (sp : Span) (s e : Nat),
      spans.Pairwise (fun a b => a.stop ≤ b.start) →
      (∀ t ∈ spans, t.start < t.stop) →
      sp ∈ spans → sp.start ≤ s → e ≤ sp.stop → s < e →
      isExcluded spans s e = true) ∧
    (∀ (spans : List Span) (lineStarts : List Nat) (file : String)
        (ctx : Nat → Option String × Option String) (ms : List LitMatch),
      literalPass spans lineStarts file ctx ms =
        (ms.filter (fun m =>
          !isExcluded spans m.start (m.start + m.value.length))).map
          (emitLiteral lineStarts file ctx)) := by
  constructor
  · intro spans sp s e hdisj hpos hmem hs he hse
    obtain ⟨⟨i, hi⟩, hget⟩ := List.mem_iff_get.mp hmem
    have hgetD : spans.getD i ⟨0, 0⟩ = sp := by
      rw [List.getD_eq_getElem spans ⟨0, 0⟩ hi, ← hget]
      simp [List.get_eq_getElem]
    have hmono := spans_start_mono spans hdisj hpos
    have hspec := bsearch_spec (fun j => (spans.getD j ⟨0, 0⟩).start) s
      spans.length hmono (spans.length + 1) 0 ((spans.length : Int) - 1)
      (-1) (by omega) (by omega) (by omega) (by push_cast; omega)
      (Or.inl rfl)
      (by intro j hj hfj; right; constructor <;> omega)
    obtain ⟨hval, hmax⟩ := hspec
    set r := bsearchGreatestLE (fun j => (spans.getD j ⟨0, 0⟩).start) s
      (spans.length + 1) 0 ((spans.length : Int) - 1) (-1) with hr
    have hfi : (spans.getD i ⟨0, 0⟩).start ≤ s := by rw [hgetD]; exact hs
    have hir : (i : Int) ≤ r := hmax i hi hfi
    have hnotneg : ¬ r = -1 := by intro hc; omega
    rcases hval with h | ⟨h1, h2, h3⟩
    · exact absurd h hnotneg
    · -- the found index is exactly i: a later span would start ≥ sp.stop > s
      have hri : r.toNat = i := by
        by_contra hne
        have hlt : i < r.toNat := by omega
        have hrn : r.toNat < spans.length := by omega
        have h3' : (spans.getD r.toNat ⟨0, 0⟩).start ≤ s := h3
        have hpair := List.pairwise_iff_get.mp hdisj ⟨i, hi⟩
          ⟨r.toNat, hrn⟩ hlt
        simp only [List.get_eq_getElem] at hpair
        have hgi : spans[i] = sp := by
          have hg := hget
          simp only [List.get_eq_getElem] at hg
          exact hg
        have hgr : spans.getD r.toNat ⟨0, 0⟩ = spans[r.toNat] :=
          List.getD_eq_getElem spans ⟨0, 0⟩ hrn
        rw [hgi] at hpair
        rw [hgr] at h3'
        omega
      simp only [isExcluded]
      rw [← hr]
      have hrpos : ¬ r < 0 := by omega
      rw [if_neg hrpos, hri, hgetD]
      have hov : s < sp.stop ∧ e > sp.start := by omega
      exact decide_eq_true hov
  · intro spans lineStarts file ctx ms
    exact filterMap_if_eq_filter_map
      (fun m => isExcluded spans m.start (m.start + m.value.length))
      (emitLiteral lineStarts file ctx) ms

/-- Witness for C6: the span `[10,17)` and a literal match spanning
`[11,18)`'s prefix `[11,15)` contained in it. -/
theorem excluded_literals_skipped_witness :
    ([⟨10, 17⟩] : List Span).Pairwise (fun a b => a.stop ≤ b.start) ∧
    (∀ t ∈ ([⟨10, 17⟩] : List Span), t.start < t.stop) ∧
    (⟨10, 17⟩ : Span) ∈ ([⟨10, 17⟩] : List Span) ∧
    isExcluded [⟨10, 17⟩] 11 15 = true ∧
    literalPass [⟨10, 17⟩] [0] "a.css" (fun _ => (none, none))
        [⟨"#abc", 11⟩] =
      (([⟨"#abc", 11⟩] : List LitMatch).filter (fun m =>
        !isExcluded [⟨10, 17⟩] m.start (m.start + m.value.length))).map
        (emitLiteral [0] "a.css" (fun _ => (none, none))) :=
  ⟨by decide, by decide, by decide,
   excluded_literals_skipped.1 [⟨10, 17⟩] ⟨10, 17⟩ 11 15 (by decide)
     (by decide) (by decide) (by decide) (by decide) (by decide),
   excluded_literals_skipped.2 [⟨10, 17⟩] [0] "a.css"
     (fun _ => (none, none)) [⟨"#abc", 11⟩]⟩

lemma drainVisited_none_mem :
    ∀ (queue visited : List String), drainVisited queue visited = none →
      ∀ q ∈ queue, q ∈ visited := by
  intro queue
  induction queue with
  | nil => intro visited _ q hq; simp at hq
  | cons u rest ih =>
      intro visited hd q hq
      rw [drainVisited] at hd
      by_cases hu : u ∈ visited
      · rw [if_pos hu] at hd
        rcases List.mem_cons.mp hq with rfl | hq'
        · exact hu
        · exact ih visited hd q hq'
      · rw [if_neg hu] at hd
        exact Option.noConfusion hd

lemma drainVisited_some_spec :
    ∀ (queue visited : List String) (uri : String) (rest : List String),
      drainVisited queue visited = some (uri, rest) →
      uri ∉ visited ∧ ∀ q ∈ queue, q ∈ visited ∨ q = uri ∨ q ∈ rest := by
  intro queue
  induction queue with
  | nil => intro visited uri rest hd; exact Option.noConfusion hd
  | cons u qrest ih =>
      intro visited uri rest hd
      rw [drainVisited] at hd
      by_cases hu : u ∈ visited
      · rw [if_pos hu] at hd
        obtain ⟨h1, h2⟩ := ih visited uri rest hd
        refine ⟨h1, ?_⟩
        intro q hq
        rcases List.mem_cons.mp hq with rfl | hq'
        · exact Or.inl hu
        · exact h2 q hq'
      · rw [if_neg hu] at hd
        have hp : u = uri ∧ qrest = rest := by
          have := Option.some.injEq (u, qrest) (uri, rest) ▸ hd
          exact Prod.mk.injEq .. ▸ this
        obtain ⟨rfl, rfl⟩ := hp
        refine ⟨hu, ?_⟩
        intro q hq
        rcases List.mem_cons.mp hq with rfl | hq'
        · exact Or.inr (Or.inl rfl)
        · exact Or.inr (Or.inr hq')

lemma bfsLoop_nodup (env : ScanEnv) (wsRoot : String) :
    ∀ (budget : Nat) (queue visited out : List String),
      out.Nodup → (∀ x ∈ out, x ∈ visited) →
      (bfsLoop env wsRoot budget queue visited out).Nodup := by
  intro budget
  induction budget with
  | zero =>
      intro queue visited out hnd _
      rw [bfsLoop]
      exact hnd
  | succ b ih =>
      intro queue visited out hnd hsub
      rw [bfsLoop]
      cases hd : drainVisited queue visited with
      | none => exact hnd
      | some p =>
          obtain ⟨uri, rest⟩ := p
          obtain ⟨hnotv, _⟩ := drainVisited_some_spec queue visited uri rest hd
          apply ih
          · rw [List.nodup_append]
            refine ⟨hnd, List.nodup_singleton _, ?_⟩
            intro x hx hx'
            rcases List.mem_singleton.mp hx' with rfl
            exact hnotv (hsub x hx)
          · intro x hx
            rcases List.mem_append.mp hx with h | h
            · exact List.mem_cons_of_mem _ (hsub x h)
            · rcases List.mem_singleton.mp h with rfl
              exact List.mem_cons_self _ _

/-- C1: `collectImportGraph` terminates on every input (it is a total
function of the embedding); the visited set ensures each file is
collected at most once; and on the two-file `a.css ↔ b.css` cycle exactly
two files are visited. -/
theorem collectImportGraph_terminates_visits_once :
    (∀ (env : ScanEnv) (wsRoot root : String) (maxFiles : Nat),
      (collectImportGraph env wsRoot root maxFiles).Nodup) ∧
    collectImportGraph cycleEnv "ws" "a.css" 120 = ["a.css", "b.css"] := by
  constructor
  · intro env wsRoot root maxFiles
    apply bfsLoop_nodup env wsRoot maxFiles [root] [] []
    · exact List.nodup_nil
    · intro x hx
      simp at hx
  · decide

lemma reaches_closed (env : ScanEnv) (wsRoot : String)
    (visited : List String)
    (hclosed : ∀ v ∈ visited, ∀ c ∈ childrenOf env wsRoot v, c ∈ visited) :
    ∀ {q u : String}, q ∈ visited → Reaches env wsRoot q u → u ∈ visited := by
  intro q u hq hr
  induction hr with
  | refl => exact hq
  | step _ hc ih => exact hclosed _ ih _ hc

lemma reaches_escape (env : ScanEnv) (wsRoot : String)
    (visited queue : List String)
    (hinv : ∀ v ∈ visited, ∀ c ∈ childrenOf env wsRoot v,
        c ∈ visited ∨ c ∈ queue) :
    ∀ {q u : String}, q ∈ visited → Reaches env wsRoot q u →
      u ∈ visited ∨ ∃ w ∈ queue, Reaches env wsRoot w u := by
  intro q u hq hr
  induction hr with
  | refl => exact Or.inl hq
  | step _ hc ih =>
      rcases ih with hv | ⟨w, hw, hwu⟩
      · rcases hinv _ hv _ hc with h | h
        · exact Or.inl h
        · exact Or.inr ⟨_, h, Reaches.refl _⟩
      · exact Or.inr ⟨w, hw, Reaches.step hwu hc⟩

lemma bfsLoop_cap_exact (env : ScanEnv) (wsRoot : String) (maxF : Nat) :
    ∀ (budget : Nat) (queue visited out : List String),
      budget + out.length = maxF →
      out.Nodup →
      (∀ x : String, x ∈ out ↔ x ∈ visited) →
      (∀ v ∈ visited, ∀ c ∈ childrenOf env wsRoot v,
          c ∈ visited ∨ c ∈ queue) →
      (bfsLoop env wsRoot budget queue visited out).length ≤ maxF ∧
      ((bfsLoop env wsRoot budget queue visited out).length < maxF →
        ∀ u : String,
          (u ∈ visited ∨ ∃ q ∈ queue, Reaches env wsRoot q u) →
          u ∈ bfsLoop env wsRoot budget queue visited out) := by
  intro budget
  induction budget with
  | zero =>
      intro queue visited out hbudget _ _ _
      rw [bfsLoop]
      exact ⟨by omega, by omega⟩
  | succ b ih =>
      intro queue visited out hbudget hnd hiff hinv
      cases hd : drainVisited queue visited with
      | none =>
          have hres : bfsLoop env wsRoot (b + 1) queue visited out = out := by
            rw [bfsLoop, hd]
          rw [hres]
          refine ⟨by omega, ?_⟩
          intro _ u hu
          have hclosed : ∀ v ∈ visited, ∀ c ∈ childrenOf env wsRoot v,
              c ∈ visited := by
            intro v hv c hc
            rcases hinv v hv c hc with h | h
            · exact h
            · exact drainVisited_none_mem queue visited hd c h
          rcases hu with hv | ⟨q, hq, hr⟩
          · exact (hiff u).mpr hv
          · have hq' : q ∈ visited := drainVisited_none_mem queue visited hd q hq
            exact (hiff u).mpr (reaches_closed env wsRoot visited hclosed hq' hr)
      | some p =>
          obtain ⟨uri, rest⟩ := p
          have hres : bfsLoop env wsRoot (b + 1) queue visited out =
              bfsLoop env wsRoot b (rest ++ childrenOf env wsRoot uri)
                (uri :: visited) (out ++ [uri]) := by
            rw [bfsLoop, hd]
          rw [hres]
          obtain ⟨hnotv, hdecomp⟩ := drainVisited_some_spec queue visited uri rest hd
          have h1 : b + (out ++ [uri]).length = maxF := by
            rw [List.length_append]
            simp only [List.length_singleton]
            omega
          have h2 : (out ++ [uri]).Nodup := by
            rw [List.nodup_append]
            refine ⟨hnd, List.nodup_singleton _, ?_⟩
            intro x hx hx'
            rcases List.mem_singleton.mp hx' with rfl
            exact hnotv ((hiff x).mp hx)
          have h3 : ∀ x : String, x ∈ out ++ [uri] ↔ x ∈ uri :: visited := by
            intro x
            rw [List.mem_append, List.mem_singleton, List.mem_cons]
            rw [hiff x]
            tauto
          have h4 : ∀ v ∈ uri :: visited,
              ∀ c ∈ childrenOf env wsRoot v,
                c ∈ uri :: visited ∨ c ∈ rest ++ childrenOf env wsRoot uri := by
            intro v hv c hc
            rcases List.mem_cons.mp hv with rfl | hv'
            · exact Or.inr (List.mem_append_right _ hc)
            · rcases hinv v hv' c hc with h | h
              · exact Or.inl (List.mem_cons_of_mem _ h)
              · rcases hdecomp c h with h' | h' | h'
                · exact Or.inl (List.mem_cons_of_mem _ h')
                · exact Or.inl (h' ▸ List.mem_cons_self _ _)
                · exact Or.inr (List.mem_append_left _ h')
          obtain ⟨hle, hcov⟩ := ih (rest ++ childrenOf env wsRoot uri)
            (uri :: visited) (out ++ [uri]) h1 h2 h3 h4
          refine ⟨hle, ?_⟩
          intro hlt u hu
          apply hcov hlt
          rcases hu with hv | ⟨q, hq, hr⟩
          · exact Or.inl (List.mem_cons_of_mem _ hv)
          · rcases hdecomp q hq with hqv | hq1 | hqr
            · exact reaches_escape env wsRoot (uri :: visited)
                (rest ++ childrenOf env wsRoot uri) h4
                (List.mem_cons_of_mem _ hqv) hr
            · exact reaches_escape env wsRoot (uri :: visited)
                (rest ++ childrenOf env wsRoot uri) h4
                (hq1 ▸ List.mem_cons_self _ _) hr
            · exact Or.inr ⟨q, List.mem_append_left _ hqr, hr⟩

lemma bfsLoop_extends (env : ScanEnv) (wsRoot : String) :
    ∀ (budget : Nat) (queue visited out : List String),
      ∃ t : List String,
        bfsLoop env wsRoot budget queue visited out = out ++ t := by
  intro budget
  induction budget with
  | zero =>
      intro queue visited out
      rw [bfsLoop]
      exact ⟨[], (List.append_nil _).symm⟩
  | succ b ih =>
      intro queue visited out
      cases hd : drainVisited queue visited with
      | none =>
          have hres : bfsLoop env wsRoot (b + 1) queue visited out = out := by
            rw [bfsLoop, hd]
          exact ⟨[], by rw [hres, List.append_nil]⟩
      | some p =>
          obtain ⟨uri, rest⟩ := p
          have hres : bfsLoop env wsRoot (b + 1) queue visited out =
              bfsLoop env wsRoot b (rest ++ childrenOf env wsRoot uri)
                (uri :: visited) (out ++ [uri]) := by
            rw [bfsLoop, hd]
          obtain ⟨t, ht⟩ := ih (rest ++ childrenOf env wsRoot uri)
            (uri :: visited) (out ++ [uri])
          exact ⟨[uri] ++ t, by rw [hres, ht, List.append_assoc]⟩

/-- C2: the collected list starts with the root, holds no duplicates and
never exceeds the cap; and whenever the reachable closure holds more than
`maxFiles` distinct files, exactly `maxFiles` are returned. -/
theorem collectImportGraph_root_nodup_cap (env : ScanEnv)
    (wsRoot root : String) (maxFiles : Nat) (hN : 1 ≤ maxFiles) :
    (collectImportGraph env wsRoot root maxFiles).head? = some root ∧
    (collectImportGraph env wsRoot root maxFiles).Nodup ∧
    (collectImportGraph env wsRoot root maxFiles).length ≤ maxFiles ∧
    (∀ S : List String, S.Nodup →
      (∀ s ∈ S, Reaches env wsRoot root s) → maxFiles < S.length →
      (collectImportGraph env wsRoot root maxFiles).length = maxFiles) := by
  have hbase := bfsLoop_cap_exact env wsRoot maxFiles maxFiles [root] [] []
    (by simp) List.nodup_nil (by simp) (by simp)
  refine ⟨?_, ?_, hbase.1, ?_⟩
  · -- the first visited file is the root
    obtain ⟨b, rfl⟩ : ∃ b, maxFiles = b + 1 := ⟨maxFiles - 1, by omega⟩
    have hstep : collectImportGraph env wsRoot root (b + 1) =
        bfsLoop env wsRoot b ([] ++ childrenOf env wsRoot root)
          (root :: []) ([] ++ [root]) := by
      rw [collectImportGraph, bfsLoop]
      have hdr : drainVisited [root] ([] : List String) = some (root, []) := by
        rw [drainVisited]
        simp
      rw [hdr]
    obtain ⟨t, ht⟩ := bfsLoop_extends env wsRoot b
      ([] ++ childrenOf env wsRoot root) (root :: []) ([] ++ [root])
    rw [hstep, ht]
    rfl
  · apply bfsLoop_nodup env wsRoot maxFiles [root] [] [] List.nodup_nil
    intro x hx
    simp at hx
  · intro S hSnd hSreach hSlen
    by_contra hne
    have hlt : (collectImportGraph env wsRoot root maxFiles).length
        < maxFiles := by
      have := hbase.1
      rw [collectImportGraph]
      rw [collectImportGraph] at hne
      omega
    have hsub : ∀ s ∈ S, s ∈ collectImportGraph env wsRoot root maxFiles := by
      intro s hs
      exact hbase.2 hlt s
        (Or.inr ⟨root, List.mem_singleton_self _, hSreach s hs⟩)
    have hcard1 : S.toFinset.card = S.length :=
      List.toFinset_card_of_nodup hSnd
    have hcard2 : (collectImportGraph env wsRoot root maxFiles).toFinset.card ≤
        (collectImportGraph env wsRoot root maxFiles).length :=
      List.toFinset_card_le _
    have hsubF : S.toFinset ⊆
        (collectImportGraph env wsRoot root maxFiles).toFinset := by
      intro x hx
      rw [List.mem_toFinset] at hx ⊢
      exact hsub x hx
    have := Finset.card_le_card hsubF
    omega

/-- Witness for C2: the three-file chain with a cap of 2. -/
theorem collectImportGraph_root_nodup_cap_witness :
    1 ≤ 2 ∧
    ((collectImportGraph chainEnv "ws" "a.css" 2).head? = some "a.css" ∧
     (collectImportGraph chainEnv "ws" "a.css" 2).Nodup ∧
     (collectImportGraph chainEnv "ws" "a.css" 2).length ≤ 2 ∧
     (∀ S : List String, S.Nodup →
       (∀ s ∈ S, Reaches chainEnv "ws" "a.css" s) → 2 < S.length →
       (collectImportGraph chainEnv "ws" "a.css" 2).length = 2)) :=
  ⟨by decide, collectImportGraph_root_nodup_cap chainEnv "ws" "a.css" 2
    (by decide)⟩

/-- C7 counterexample: in the third revision's `isFollowable`
(extension.ts:4619) a style-sheet `@import` of an HTTP URL *is*
followable, contradicting "an http(s) or data: URL is never followed". -/
theorem isFollowable_http_css_accepted :
    isFollowable "http://example.com/theme.css" ImportKind.css = true := by
  decide

lemma charsPre_head {p : Char} {ps cs : List Char}
    (h : charsPre (p :: ps) cs = true) : ∃ rest, cs = p :: rest := by
  cases cs with
  | nil => exact Bool.noConfusion h
  | cons c cs' =>
      rw [charsPre, Bool.and_eq_true] at h
      exact ⟨cs', by rw [of_decide_eq_true h.1]⟩

lemma charsPre_head_ne {a b : Char} {as bs : List Char} (hne : a ≠ b)
    {cs : List Char} (h : charsPre (a :: as) cs = true) :
    charsPre (b :: bs) cs = false := by
  cases hb : charsPre (b :: bs) cs
  · rfl
  · obtain ⟨r, hr⟩ := charsPre_head h
    obtain ⟨r', hr'⟩ := charsPre_head hb
    rw [hr] at hr'
    exact absurd (List.cons.injEq .. ▸ hr').1 hne

lemma charsPre_of_append {p q cs : List Char}
    (h : charsPre (p ++ q) cs = true) : charsPre p cs = true := by
  induction p generalizing cs with
  | nil => rfl
  | cons a ps ih =>
      cases cs with
      | nil => exact Bool.noConfusion h
      | cons c cs' =>
          rw [List.cons_append, charsPre, Bool.and_eq_true] at h
          rw [charsPre, Bool.and_eq_true]
          exact ⟨h.1, ih h.2⟩

/-- C7 amended: the `isFollowable` carrying the HTTP guard (first and
second revisions, extension.ts:1281/2973) accepts exactly the relative,
root-absolute and alias prefixes, plus — for style-sheet imports only —
any specifier not starting with `http` or `data:`; in particular an
http(s) or data: URL is never followable there.  (The third revision's
`isFollowable` instead accepts any css specifier not starting with `.`,
`@` or `~` — see the counterexample.) -/
theorem isFollowable_httpGuard_characterization :
    (∀ (spec : String) (kind : ImportKind),
      ThemeVariant.isFollowable spec kind = true ↔
        (jsStartsWith spec "./" = true ∨ jsStartsWith spec "../" = true ∨
         jsStartsWith spec "/" = true ∨ jsStartsWith spec "@/" = true ∨
         jsStartsWith spec "~/" = true ∨
         (kind = ImportKind.css ∧ jsStartsWith spec "http" = false ∧
          jsStartsWith spec "data:" = false))) ∧
    (∀ (spec : String) (kind : ImportKind),
      (jsStartsWith spec "http://" = true ∨
       jsStartsWith spec "https://" = true ∨
       jsStartsWith spec "data:" = true) →
      ThemeVariant.isFollowable spec kind = false) := by
  constructor
  · intro spec kind
    rw [ThemeVariant.isFollowable]
    cases h1 : jsStartsWith spec "./" <;>
    cases h2 : jsStartsWith spec "../" <;>
    cases h3 : jsStartsWith spec "/" <;>
    cases h4 : jsStartsWith spec "@/" <;>
    cases h5 : jsStartsWith spec "~/" <;>
    cases h6 : jsStartsWith spec "http" <;>
    cases h7 : jsStartsWith spec "data:" <;>
    cases kind <;> decide
  · intro spec kind hurl
    have hfirst : ∀ (a : Char) (as : List Char),
        charsPre (a :: as) spec.data = true →
        ∀ (b : Char) (bs : List Char), a ≠ b →
          charsPre (b :: bs) spec.data = false := by
      intro a as ha b bs hne
      exact charsPre_head_ne hne ha
    rcases hurl with h | h | h
    · -- http://...
      have hh : charsPre ('h' :: ['t', 't', 'p', ':', '/', '/'])
          spec.data = true := h
      have hd1 : jsStartsWith spec "./" = false :=
        hfirst 'h' _ hh '.' ['/'] (by decide)
      have hd2 : jsStartsWith spec "../" = false :=
        hfirst 'h' _ hh '.' ['.', '/'] (by decide)
      have hd3 : jsStartsWith spec "/" = false :=
        hfirst 'h' _ hh '/' [] (by decide)
      have hd4 : jsStartsWith spec "@/" = false :=
        hfirst 'h' _ hh '@' ['/'] (by decide)
      have hd5 : jsStartsWith spec "~/" = false :=
        hfirst 'h' _ hh '~' ['/'] (by decide)
      have hd6 : jsStartsWith spec "http" = true :=
        @charsPre_of_append ['h', 't', 't', 'p'] [':', '/', '/']
          spec.data h
      rw [ThemeVariant.isFollowable]
      simp [hd1, hd2, hd3, hd4, hd5, hd6]
    · -- https://...
      have hh : charsPre ('h' :: ['t', 't', 'p', 's', ':', '/', '/'])
          spec.data = true := h
      have hd1 : jsStartsWith spec "./" = false :=
        hfirst 'h' _ hh '.' ['/'] (by decide)
      have hd2 : jsStartsWith spec "../" = false :=
        hfirst 'h' _ hh '.' ['.', '/'] (by decide)
      have hd3 : jsStartsWith spec "/" = false :=
        hfirst 'h' _ hh '/' [] (by decide)
      have hd4 : jsStartsWith spec "@/" = false :=
        hfirst 'h' _ hh '@' ['/'] (by decide)
      have hd5 : jsStartsWith spec "~/" = false :=
        hfirst 'h' _ hh '~' ['/'] (by decide)
      have hd6 : jsStartsWith spec "http" = true :=
        @charsPre_of_append ['h', 't', 't', 'p'] ['s', ':', '/', '/']
          spec.data h
      rw [ThemeVariant.isFollowable]
      simp [hd1, hd2, hd3, hd4, hd5, hd6]
    · -- data:...
      have hh : charsPre ('d' :: ['a', 't', 'a', ':'])
          spec.data = true := h
      have hd1 : jsStartsWith spec "./" = false :=
        hfirst 'd' _ hh '.' ['/'] (by decide)
      have hd2 : jsStartsWith spec "../" = false :=
        hfirst 'd' _ hh '.' ['.', '/'] (by decide)
      have hd3 : jsStartsWith spec "/" = false :=
        hfirst 'd' _ hh '/' [] (by decide)
      have hd4 : jsStartsWith spec "@/" = false :=
        hfirst 'd' _ hh '@' ['/'] (by decide)
      have hd5 : jsStartsWith spec "~/" = false :=
        hfirst 'd' _ hh '~' ['/'] (by decide)
      rw [ThemeVariant.isFollowable]
      simp [hd1, hd2, hd3, hd4, hd5, h]

/-- Witness for C7's amended statement: an HTTP css specifier is
rejected by the http-guard `isFollowable`. -/
theorem isFollowable_httpGuard_characterization_witness :
    (jsStartsWith "http://example.com/theme.css" "http://" = true ∨
     jsStartsWith "http://example.com/theme.css" "https://" = true ∨
     jsStartsWith "http://example.com/theme.css" "data:" = true) ∧
    ThemeVariant.isFollowable "http://example.com/theme.css"
      ImportKind.css = false :=
  ⟨Or.inl (by decide), isFollowable_httpGuard_characterization.2
    "http://example.com/theme.css" ImportKind.css (Or.inl (by decide))⟩

namespace ThemeVariant

lemma hitKey_dark_ne_base (name value1 value2 file : String)
    (r1 r2 : HitRange) (u1 u2 : List UsageHit) :
    hitKey (ColorHit.var name value1 file r1 u1 ThemeTag.dark) ≠
    hitKey (ColorHit.var name value2 file r2 u2 ThemeTag.base) := by
  intro h
  have hd := congrArg String.data h
  simp only [hitKey, jsToLower, themeStr, String.data_append,
    List.map_append, List.append_assoc] at hd
  have h2 := List.append_cancel_left hd
  have h3 := List.append_cancel_left h2
  rw [show List.map Char.toLower ['d', 'a', 'r', 'k'] = ['d', 'a', 'r', 'k']
        from by decide,
      show List.map Char.toLower ['b', 'a', 's', 'e'] = ['b', 'a', 's', 'e']
        from by decide] at h3
  simp only [List.cons_append] at h3
  injection h3 with h4 _
  exact absurd h4 (by decide)

lemma mergeHitsGo_var_key :
    ∀ (hits : List ColorHit) (varSeen litSeen : List String) (h : ColorHit),
      h ∈ hits → h.isVar = true →
      hitKey h ∈ varSeen ∨
      ∃ h' ∈ mergeHitsGo varSeen litSeen hits,
        h'.isVar = true ∧ hitKey h' = hitKey h := by
  intro hits
  induction hits with
  | nil => intro varSeen litSeen h hmem _; simp at hmem
  | cons g rest ih =>
      intro varSeen litSeen h hmem hvar
      rcases List.mem_cons.mp hmem with rfl | hmem'
      · -- the head itself (a variable hit, by `hvar`)
        cases hg : h with
        | literal v f r us =>
            rw [hg] at hvar
            exact Bool.noConfusion hvar
        | var n v f r us t =>
            subst hg
            by_cases hseen : hitKey (ColorHit.var n v f r us t) ∈ varSeen
            · exact Or.inl hseen
            · right
              refine ⟨ColorHit.var n v f r us t, ?_, rfl, rfl⟩
              have hres : mergeHitsGo varSeen litSeen
                  (ColorHit.var n v f r us t :: rest) =
                  ColorHit.var n v f r us t ::
                    mergeHitsGo (hitKey (ColorHit.var n v f r us t) :: varSeen)
                      litSeen rest := by
                rw [mergeHitsGo, if_neg hseen]
              rw [hres]
              exact List.mem_cons_self _ _
      · -- the head is someone else; recurse
        cases g with
        | literal v f r us =>
            by_cases hseen : hitKey (ColorHit.literal v f r us) ∈ litSeen
            · have hres : mergeHitsGo varSeen litSeen
                  (ColorHit.literal v f r us :: rest) =
                  mergeHitsGo varSeen litSeen rest := by
                rw [mergeHitsGo, if_pos hseen]
              rw [hres]
              exact ih varSeen litSeen h hmem' hvar
            · have hres : mergeHitsGo varSeen litSeen
                  (ColorHit.literal v f r us :: rest) =
                  ColorHit.literal v f r us ::
                    mergeHitsGo varSeen
                      (hitKey (ColorHit.literal v f r us) :: litSeen) rest := by
                rw [mergeHitsGo, if_neg hseen]
              rw [hres]
              rcases ih varSeen (hitKey (ColorHit.literal v f r us) :: litSeen)
                  h hmem' hvar with h1 | ⟨h', hh', hh'var, hh'key⟩
              · exact Or.inl h1
              · exact Or.inr ⟨h', List.mem_cons_of_mem _ hh', hh'var, hh'key⟩
        | var n v f r us t =>
            by_cases hseen : hitKey (ColorHit.var n v f r us t) ∈ varSeen
            · have hres : mergeHitsGo varSeen litSeen
                  (ColorHit.var n v f r us t :: rest) =
                  mergeHitsGo varSeen litSeen rest := by
                rw [mergeHitsGo, if_pos hseen]
              rw [hres]
              exact ih varSeen litSeen h hmem' hvar
            · have hres : mergeHitsGo varSeen litSeen
                  (ColorHit.var n v f r us t :: rest) =
                  ColorHit.var n v f r us t ::
                    mergeHitsGo (hitKey (ColorHit.var n v f r us t) :: varSeen)
                      litSeen rest := by
                rw [mergeHitsGo, if_neg hseen]
              rw [hres]
              rcases ih (hitKey (ColorHit.var n v f r us t) :: varSeen) litSeen
                  h hmem' hvar with h1 | ⟨h', hh', hh'var, hh'key⟩
              · rcases List.mem_cons.mp h1 with heq | hin
                · exact Or.inr ⟨ColorHit.var n v f r us t,
                    List.mem_cons_self _ _, rfl, heq.symm⟩
                · exact Or.inl hin
              · exact Or.inr ⟨h', List.mem_cons_of_mem _ hh', hh'var, hh'key⟩

lemma mergeHits_var_key (hits : List ColorHit) (h : ColorHit)
    (hmem : h ∈ hits) (hvar : h.isVar = true) :
    ∃ h' ∈ mergeHits hits, h'.isVar = true ∧ hitKey h' = hitKey h := by
  rcases mergeHitsGo_var_key hits [] [] h hmem hvar with h1 | h2
  · simp at h1
  · exact h2

end ThemeVariant

/-- C8: in the theme-classifying variant, the `--bg` defined inside the
`prefers-color-scheme: dark` block (line index 2 of the example) is
tagged dark while the top-level definition of the same name (line index
6) is tagged base; and since the theme tag is part of the variable dedup
key, a dark and a base definition of one name always yield two distinct
entries in the merged list. -/
theorem theme_classification_distinct_entries :
    ((ThemeVariant.computeThemeByLine ThemeVariant.exampleCss).get? 2 =
        some ThemeVariant.ThemeTag.dark ∧
     (ThemeVariant.computeThemeByLine ThemeVariant.exampleCss).get? 6 =
        some ThemeVariant.ThemeTag.base) ∧
    (∀ (hits : List ThemeVariant.ColorHit) (name value1 value2 file : String)
        (r1 r2 : HitRange) (u1 u2 : List ThemeVariant.UsageHit),
      ThemeVariant.ColorHit.var name value1 file r1 u1
        ThemeVariant.ThemeTag.dark ∈ hits →
      ThemeVariant.ColorHit.var name value2 file r2 u2
        ThemeVariant.ThemeTag.base ∈ hits →
      ∃ e1 ∈ ThemeVariant.mergeHits hits,
        ∃ e2 ∈ ThemeVariant.mergeHits hits,
          ThemeVariant.hitKey e1 = ThemeVariant.hitKey
            (ThemeVariant.ColorHit.var name value1 file r1 u1
              ThemeVariant.ThemeTag.dark) ∧
          ThemeVariant.hitKey e2 = ThemeVariant.hitKey
            (ThemeVariant.ColorHit.var name value2 file r2 u2
              ThemeVariant.ThemeTag.base) ∧
          e1 ≠ e2) := by
  constructor
  · exact ⟨by decide, by decide⟩
  · intro hits name value1 value2 file r1 r2 u1 u2 hdark hbase
    obtain ⟨e1, he1, _, hk1⟩ :=
      ThemeVariant.mergeHits_var_key hits _ hdark rfl
    obtain ⟨e2, he2, _, hk2⟩ :=
      ThemeVariant.mergeHits_var_key hits _ hbase rfl
    refine ⟨e1, he1, e2, he2, hk1, hk2, ?_⟩
    intro hcontra
    rw [hcontra] at hk1
    rw [hk1] at hk2
    exact ThemeVariant.hitKey_dark_ne_base name value1 value2 file
      r1 r2 u1 u2 hk2

/-- Witness for C8 with a two-hit list containing a dark and a base
definition of `--bg`. -/
theorem theme_classification_distinct_entries_witness :
    ThemeVariant.ColorHit.var "--bg" "#000000" "a.css" ⟨3, 4, 11⟩ []
        ThemeVariant.ThemeTag.dark ∈
      ([ThemeVariant.ColorHit.var "--bg" "#000000" "a.css" ⟨3, 4, 11⟩ []
          ThemeVariant.ThemeTag.dark,
        ThemeVariant.ColorHit.var "--bg" "#ffffff" "a.css" ⟨7, 2, 9⟩ []
          ThemeVariant.ThemeTag.base] : List ThemeVariant.ColorHit) ∧
    ThemeVariant.ColorHit.var "--bg" "#ffffff" "a.css" ⟨7, 2, 9⟩ []
        ThemeVariant.ThemeTag.base ∈
      ([ThemeVariant.ColorHit.var "--bg" "#000000" "a.css" ⟨3, 4, 11⟩ []
          ThemeVariant.ThemeTag.dark,
        ThemeVariant.ColorHit.var "--bg" "#ffffff" "a.css" ⟨7, 2, 9⟩ []
          ThemeVariant.ThemeTag.base] : List ThemeVariant.ColorHit) ∧
    (∃ e1 ∈ ThemeVariant.mergeHits
        [ThemeVariant.ColorHit.var "--bg" "#000000" "a.css" ⟨3, 4, 11⟩ []
           ThemeVariant.ThemeTag.dark,
         ThemeVariant.ColorHit.var "--bg" "#ffffff" "a.css" ⟨7, 2, 9⟩ []
           ThemeVariant.ThemeTag.base],
      ∃ e2 ∈ ThemeVariant.mergeHits
        [ThemeVariant.ColorHit.var "--bg" "#000000" "a.css" ⟨3, 4, 11⟩ []
           ThemeVariant.ThemeTag.dark,
         ThemeVariant.ColorHit.var "--bg" "#ffffff" "a.css" ⟨7, 2, 9⟩ []
           ThemeVariant.ThemeTag.base],
        ThemeVariant.hitKey e1 = ThemeVariant.hitKey
          (ThemeVariant.ColorHit.var "--bg" "#000000" "a.css" ⟨3, 4, 11⟩ []
            ThemeVariant.ThemeTag.dark) ∧
        ThemeVariant.hitKey e2 = ThemeVariant.hitKey
          (ThemeVariant.ColorHit.var "--bg" "#ffffff" "a.css" ⟨7, 2, 9⟩ []
            ThemeVariant.ThemeTag.base) ∧
        e1 ≠ e2) :=
  ⟨by decide, by decide,
    theme_classification_distinct_entries.2
      [ThemeVariant.ColorHit.var "--bg" "#000000" "a.css" ⟨3, 4, 11⟩ []
         ThemeVariant.ThemeTag.dark,
       ThemeVariant.ColorHit.var "--bg" "#ffffff" "a.css" ⟨7, 2, 9⟩ []
         ThemeVariant.ThemeTag.base]
      "--bg" "#000000" "#ffffff" "a.css" ⟨3, 4, 11⟩ ⟨7, 2, 9⟩ [] []
      (by decide) (by decide)⟩
